import Mathlib

/-
Formal model of the moonsheep consensus-verification core.

Embedded source files (vtemian/moonsheep):
  * moonsheep/views.py   — `unpack_post` (flat bracketed POST keys → nested value tree)
  * moonsheep/tasks.py   — `AbstractTask.cross_check`, `verify_and_save`, `verify_task`

External collaborators (Django `transaction.atomic`, the `dpath` library, the
pybossa client) are modelled at their interface, following the behaviour the
repository itself exercises in `moonsheep/tests/tests.py`.  The module
`moonsheep/verifiers.py` is imported by the source but is not part of the
source tree available here; the verifiers are modelled from the spec
(sections 4.2 and 4.3) and are marked as such below.
-/

/-- Value tree: scalar string, ordered sequence, or string-keyed mapping.
Mappings are modelled as insertion-ordered association lists, mirroring
Python dicts (which preserve insertion order and have unique keys). -/
inductive Val where
  | str : String → Val
  | arr : List Val → Val
  | obj : List (String × Val) → Val

/-- Structural induction for the nested inductive `Val`. -/
theorem Val.inductionOn (P : Val → Prop) (hstr : ∀ s, P (Val.str s))
    (harr : ∀ l, (∀ v ∈ l, P v) → P (Val.arr l))
    (hobj : ∀ m, (∀ p ∈ m, P p.2) → P (Val.obj m)) : ∀ v, P v := by
  have main : ∀ n, ∀ v : Val, sizeOf v ≤ n → P v := by
    intro n
    induction n with
    | zero => intro v h; cases v <;> simp at h
    | succ n ih =>
      intro v h
      match v with
      | Val.str s => exact hstr s
      | Val.arr l =>
        refine harr l (fun x hx => ih x ?_)
        have hs := List.sizeOf_lt_of_mem hx
        simp at h
        omega
      | Val.obj m =>
        refine hobj m (fun p hp => ih p.2 ?_)
        have hs := List.sizeOf_lt_of_mem hp
        have hp2 : sizeOf p.2 < sizeOf p := by
          obtain ⟨a, b⟩ := p
          simp
        simp at h
        omega
  exact fun v => main (sizeOf v) v le_rfl

mutual

/-- Boolean equality on value trees (used to derive decidable equality,
which the nested inductive does not get automatically). -/
def beqVal : Val → Val → Bool
  | Val.str a, Val.str b => a == b
  | Val.arr a, Val.arr b => beqValList a b
  | Val.obj a, Val.obj b => beqValObj a b
  | _, _ => false

/-- Boolean equality on lists of value trees. -/
def beqValList : List Val → List Val → Bool
  | [], [] => true
  | a :: as, b :: bs => beqVal a b && beqValList as bs
  | _, _ => false

/-- Boolean equality on association lists of value trees. -/
def beqValObj : List (String × Val) → List (String × Val) → Bool
  | [], [] => true
  | (k, v) :: as, (k', v') :: bs => k == k' && beqVal v v' && beqValObj as bs
  | _, _ => false

end

/-- Helper for `beqVal_iff`: list equality from elementwise equivalences. -/
theorem beqValList_iff (l : List Val)
    (ih : ∀ v ∈ l, ∀ b, beqVal v b = true ↔ v = b) :
    ∀ l', beqValList l l' = true ↔ l = l' := by
  induction l with
  | nil => intro l'; cases l' <;> simp [beqValList]
  | cons a as iha =>
    intro l'
    cases l' with
    | nil => simp [beqValList]
    | cons b bs =>
      have h1 := ih a (by simp)
      have h2 := iha (fun v hv => ih v (by simp [hv]))
      simp [beqValList, h1, h2]

/-- Helper for `beqVal_iff`: association-list equality from elementwise
equivalences. -/
theorem beqValObj_iff (m : List (String × Val))
    (ih : ∀ p ∈ m, ∀ b, beqVal p.2 b = true ↔ p.2 = b) :
    ∀ m', beqValObj m m' = true ↔ m = m' := by
  induction m with
  | nil => intro m'; cases m' <;> simp [beqValObj]
  | cons a as iha =>
    intro m'
    cases m' with
    | nil => obtain ⟨k, v⟩ := a; simp [beqValObj]
    | cons b bs =>
      obtain ⟨k, v⟩ := a
      obtain ⟨k', v'⟩ := b
      have h1 := ih (k, v) (by simp)
      have h2 := iha (fun p hp => ih p (by simp [hp]))
      simp [beqValObj, h1, h2]

/-- `beqVal` decides equality of value trees. -/
theorem beqVal_iff : ∀ a b : Val, beqVal a b = true ↔ a = b := by
  intro a
  induction a using Val.inductionOn with
  | hstr s => intro b; cases b <;> simp [beqVal]
  | harr l ih =>
    intro b
    cases b <;> simp [beqVal]
    exact beqValList_iff l ih _
  | hobj m ih =>
    intro b
    cases b <;> simp [beqVal]
    exact beqValObj_iff m ih _

instance : DecidableEq Val :=
  fun a b => decidable_of_iff (beqVal a b = true) (beqVal_iff a b)

deriving instance DecidableEq for Except

/-- Lookup in an association list (first matching key), mirroring Python
dict access where keys are unique. -/
def lookupA : List (String × Val) → String → Option Val
  | [], _ => none
  | (k, v) :: rest, key => if k = key then some v else lookupA rest key

/-- Set a key in an association list: replace the first occurrence in place,
or append at the end — exactly how assignment behaves on a Python dict. -/
def updateA : List (String × Val) → String → Val → List (String × Val)
  | [], key, nv => [(key, nv)]
  | (k, v) :: rest, key, nv =>
      if k = key then (key, nv) :: rest else (k, v) :: updateA rest key nv

/-- Modify the value at a key if present; a missing key leaves the list
unchanged. -/
def modifyA : List (String × Val) → String → (Val → Val) → List (String × Val)
  | [], _, _ => []
  | (k, v) :: rest, key, f =>
      if k = key then (k, f v) :: rest else (k, v) :: modifyA rest key f

/-- Keys of an association list, in order. -/
def keysA (m : List (String × Val)) : List String := m.map Prod.fst

/-- Characters accepted by the field-name regex character class
`[\w\-_]` of `unpack_post` (ASCII reading of `\w`). -/
def wordChar (c : Char) : Bool := c.isAlphanum || c = '_' || c = '-'

/-- Parse the bracket selectors of a field key: zero or more `[seg]` groups
with nonempty `seg` of word characters, then an optional trailing `[]`
which must end the key.  Mirrors the regex
`(?P<selectors>(\[[\d\w\-_]+\])*)(?P<trailing_brackets>\[\])?$`
in `unpack_post` (views.py). -/
def selsP : Option (List Char) → List Char → Option (List String × Bool)
  | none, [] => some ([], false)
  | none, c :: rest => if c = '[' then selsP (some []) rest else none
  | some _, [] => none
  | some acc, c :: rest =>
      if c = ']' then
        match acc with
        | [] => if rest.isEmpty then some ([], true) else none
        | a :: acc2 => (selsP none rest).map
            (fun p => (String.mk (a :: acc2).reverse :: p.1, p.2))
      else if wordChar c then selsP (some (c :: acc)) rest else none

/-- Parse the bracket selectors of a field key from its character list:
the state is `none` between groups and `some acc` inside a bracket with the
characters read so far (reversed). -/
def parseSels (cs : List Char) : Option (List String × Bool) := selsP none cs

/-- Parse a whole field key into (name, selectors, trailing-brackets flag),
mirroring the regex `^(?P<object>[\w\-_]+)(selectors)(\[\])?$` of
`unpack_post`; `none` models the `Exception("Field name not valid")` raise. -/
def parseKey (k : String) : Option (String × List String × Bool) :=
  let cs := k.toList
  let name := cs.takeWhile wordChar
  if name.isEmpty then none
  else (parseSels (cs.dropWhile wordChar)).map (fun p => (String.mk name, p.1, p.2))

/-- True when the selector starts with a digit — the source's
`re.match(r'\d+', idx)` test that marks a path for list conversion. -/
def digitLeading (s : String) : Bool :=
  match s.toList with
  | c :: _ => c.isDigit
  | [] => false

/-- Digit run with optional single underscores between digits, as accepted by
Python's `int()` (e.g. `int("1_0") = 10`); anything else is a parse failure. -/
def digitsGo : Nat → List Char → Option Nat
  | acc, [] => some acc
  | acc, c :: rest =>
      if c.isDigit then digitsGo (acc * 10 + (c.toNat - 48)) rest
      else if c = '_' then
        match rest with
        | c2 :: rest2 =>
            if c2.isDigit then digitsGo (acc * 10 + (c2.toNat - 48)) rest2 else none
        | [] => none
      else none

/-- Python `int(s)` on a selector string: optional minus sign then digits
(with underscore separators).  `'+'` and whitespace, also accepted by
`int()`, cannot occur in a selector (not in the key character class).
`none` models the `ValueError` raise. -/
def intOfKey (s : String) : Option Int :=
  match s.toList with
  | '-' :: c :: rest =>
      if c.isDigit then (digitsGo (c.toNat - 48) rest).map (fun n => -(n : Int))
      else none
  | c :: rest =>
      if c.isDigit then (digitsGo (c.toNat - 48) rest).map (fun n => (n : Int))
      else none
  | [] => none

/-- Index interpretation of a path segment applied to a Python list by
`dpath.util.get`: a plain digit run. -/
def listIdx (s : String) : Option Nat :=
  match s.toList with
  | [] => none
  | cs =>
      if cs.all Char.isDigit then
        some (cs.foldl (fun a c => a * 10 + (c.toNat - 48)) 0)
      else none

/-- Model of `dpath.util.new(result, path, value)`: walk the path, creating
intermediate dicts as needed (an existing non-dict on the way is replaced by
a fresh dict), and set the value at the final segment. -/
def dnew : Val → List String → Val → Val
  | _, [], leaf => leaf
  | v, s :: rest, leaf =>
      let m := match v with | .obj m => m | _ => []
      let child := (lookupA m s).getD (Val.obj [])
      Val.obj (updateA m s (dnew child rest leaf))

/-- Model of `dpath.util.get(result, path)`: traverse dicts by key and lists
by numeric index; `none` models the raised `KeyError` when the path does not
exist. -/
def dget : Val → List String → Option Val
  | v, [] => some v
  | Val.obj m, s :: rest =>
      match lookupA m s with
      | some c => dget c rest
      | none => none
  | Val.arr l, s :: rest =>
      match listIdx s with
      | some i =>
          match l.get? i with
          | some c => dget c rest
          | none => none
      | none => none
  | Val.str _, _ :: _ => none

/-- Model of `dpath.util.set(result, path, value)`: only existing dict
entries are modified; a missing key, or a list on the way, leaves the tree
unchanged.  The silent no-op on list traversal is the behaviour the
repository records in its own test `test_nested_rows_numbered`
(the nested level is sometimes left unconverted). -/
def dset : Val → List String → Val → Val
  | _, [], nv => nv
  | Val.obj m, s :: rest, nv => Val.obj (modifyA m s (fun c => dset c rest nv))
  | v, _ :: _, _ => v

/-- Errors raised by `unpack_post`: the explicit
`Exception("Field name not valid: ...")`, the `ValueError` from `int()` on a
non-integer key, the `KeyError` from `dpath.util.get` or a `d[str(k)]`
lookup, and the `AttributeError` from calling `.keys()` on a non-dict. -/
inductive UErr where
  | malformedFieldName : String → UErr
  | valueError : UErr
  | keyError : UErr
  | attributeError : UErr
deriving DecidableEq

/-- The conversion paths recorded while walking the selectors of one key:
the source appends each selector to `path` after testing it, so the path
recorded for an integer-looking selector is the path of its parent level. -/
def selConvPaths : List String → List String → List (List String)
  | _, [] => []
  | path, s :: rest =>
      (if digitLeading s then [path] else []) ++ selConvPaths (path ++ [s]) rest

/-- Insert a path into the collected conversion-path list unless already
present (Python `set.add`), keeping first-insertion order. -/
def addConv (convs : List (List String)) (p : List String) : List (List String) :=
  if p ∈ convs then convs else convs ++ [p]

/-- State of the first pass of `unpack_post`: the accumulating result tree
and the collected `convert_to_array_paths`. -/
structure P1 where
  result : Val
  convs : List (List String)
deriving DecidableEq

/-- Process one POST key: parse it, compute the leaf (scalar when a single
value was submitted and no trailing `[]`, else the ordered list of values),
record conversion paths, and insert the leaf with `dpath.util.new`. -/
def stepKey (st : P1) (k : String) (vals : List String) : Except UErr P1 :=
  match parseKey k with
  | none => Except.error (UErr.malformedFieldName k)
  | some (name, sels, trail) =>
      let leaf :=
        match vals, trail with
        | [v], false => Val.str v
        | vs, _ => Val.arr (vs.map Val.str)
      Except.ok
        ⟨dnew st.result (name :: sels) leaf,
         (selConvPaths [name] sels).foldl addConv st.convs⟩

/-- First pass of `unpack_post` over all POST keys (iteration order of
`post.keys()`, with `post.getlist` values carried alongside each key). -/
def insertAll : List (String × List String) → P1 → Except UErr P1
  | [], st => Except.ok st
  | (k, vs) :: rest, st => (stepKey st k vs).bind (insertAll rest)

/-- One round of the conversion post-pass of `unpack_post` for a collected
path: fetch the mapping, apply `int()` to every key, sort numerically, read
the entries back through `str()`, and store the resulting list. -/
def convertStep (v : Val) (p : List String) : Except UErr Val :=
  match dget v p with
  | none => Except.error UErr.keyError
  | some (Val.obj m) =>
      match m.mapM (fun pr => intOfKey pr.1) with
      | none => Except.error UErr.valueError
      | some ints =>
          match (List.insertionSort (fun a b => a ≤ b) ints).mapM
              (fun i => lookupA m (toString i)) with
          | none => Except.error UErr.keyError
          | some vsorted => Except.ok (dset v p (Val.arr vsorted))
  | some _ => Except.error UErr.attributeError

/-- Model of `unpack_post` (views.py).  `post` is the multidict of submitted
fields; `convOrder` is the order in which the conversion pass iterates
`convert_to_array_paths` — a Python `set` of strings, whose iteration order
is not determined by the source (string hashing is randomized per process),
so it is passed explicitly and constrained to be a permutation of the
collected paths in the theorems below. -/
def unpack_post (post : List (String × List String))
    (convOrder : List (List String)) : Except UErr Val :=
  (insertAll post ⟨Val.obj [], []⟩).bind
    (fun st => convOrder.foldlM convertStep st.result)

/-- The collected `convert_to_array_paths` of a POST, in first-insertion
order (any iteration order of the Python set is a permutation of this). -/
def collectedPaths (post : List (String × List String)) : List (List String) :=
  match insertAll post ⟨Val.obj [], []⟩ with
  | Except.ok st => st.convs
  | Except.error _ => []

/-- True when the value is mapping-shaped. -/
def isObjB : Val → Bool
  | Val.obj _ => true
  | _ => false

/-- True when the value is a scalar. -/
def isStrB : Val → Bool
  | Val.str _ => true
  | _ => false

/-- Keys of a mapping-shaped value ( `[]` for other shapes). -/
def objKeys : Val → List String
  | Val.obj m => keysA m
  | _ => []

/-- Lookup of a field inside a mapping-shaped value. -/
def objLookupV (e : Val) (k : String) : Option Val :=
  match e with
  | Val.obj m => lookupA m k
  | _ => none

/-- Set comparison of two sequences: order and multiplicity ignored
(spec 4.2, UnorderedSet verifier). -/
def sameSetB (l : List Val) (v : Val) : Bool :=
  match v with
  | Val.arr l' =>
      l.all (fun x => l'.any (fun y => decide (y = x)))
        && l'.all (fun x => l.any (fun y => decide (y = x)))
  | _ => false

mutual

/-- Modelled from the spec: the recursive verifier dispatch of
`moonsheep/verifiers.py` (not present in the source tree), sections 4.2-4.3
of the spec.  The first submission's shape selects the verifier:
scalar → Equals (all values identical, confidence 1, else confidence 0 and
no resolved value); sequence → UnorderedSet (set equality, resolved value
is the first submission's sequence); mapping → recursive mapping verifier
(each key verified independently, overall confidence the minimum of the
sub-field confidences, resolved value the mapping of resolved sub-values; a
key missing from some submission, a non-mapping co-submission, or a key
present only in a later submission counts as a disagreement). -/
def verifyVal : Val → List Val → Option Val × ℚ
  | Val.str s, rest =>
      if rest.all (fun v => decide (v = Val.str s)) then (some (Val.str s), 1)
      else (none, 0)
  | Val.arr l, rest =>
      if rest.all (fun v => sameSetB l v) then (some (Val.arr l), 1)
      else (none, 0)
  | Val.obj m, rest =>
      if rest.all isObjB
          && (rest.flatMap objKeys).all (fun k => (keysA m).any (fun k' => decide (k' = k))) then
        let p := verifyFields m rest
        (p.1.map Val.obj, p.2)
      else (none, 0)

/-- Modelled from the spec: verify the fields of the first submission's
mapping one by one against the co-submissions (a key missing from a
co-submission is a disagreement); overall confidence is the minimum of the
per-field confidences (1 for the empty mapping), the resolved mapping
exists only when every field resolved. -/
def verifyFields : List (String × Val) → List Val → Option (List (String × Val)) × ℚ
  | [], _ => (some [], 1)
  | (k, v) :: fs, rest =>
      let hd :=
        match rest.mapM (fun e => objLookupV e k) with
        | some subs => verifyVal v subs
        | none => (none, 0)
      let tl := verifyFields fs rest
      (match hd.1, tl.1 with
       | some x, some xs => some ((k, x) :: xs)
       | _, _ => none,
       min hd.2 tl.2)

end

/-- Verification of a single field: look the key up in every co-submission
(a missing key is a disagreement) and recurse; this is the `hd` computation
of `verifyFields`, split out for the lemmas below. -/
def fieldCheck (rest : List Val) (k : String) (v : Val) : Option Val × ℚ :=
  match rest.mapM (fun e => objLookupV e k) with
  | some subs => verifyVal v subs
  | none => (none, 0)

/-- Modelled from the spec: `MIN_CONFIDENCE` of `moonsheep/verifiers.py`
(not in the source tree); the spec fixes the default to 1.0 (section 4.4). -/
def MIN_CONFIDENCE : ℚ := 1

/-- Model of `AbstractTask.cross_check` (tasks.py) together with the
`minRequired = 2` guard of the consensus engine (spec 4.3, the guard lives
in the missing verifiers module): fewer than 2 submissions give confidence
0 and no resolved value without comparing anything; otherwise the default
recursive verifier runs on the submissions.  Returns (resolved, confidence)
as consumed by `verify_and_save` (`crosschecked, confidence = ...`). -/
def cross_check (entries : List Val) : Option Val × ℚ :=
  if entries.length < 2 then (none, 0)
  else
    match entries with
    | [] => (none, 0)
    | e :: rest => verifyVal e rest

/-- Persisted state of the external storage collaborator: the verified
results committed so far and the number of follow-on tasks created. -/
structure DbState where
  saved : List (Option Val)
  created : Nat
deriving DecidableEq

/-- The task type's hooks (`save_verified_data` and `after_save`,
implemented by derived task classes): each acts on the persisted state and
may raise. -/
structure Hooks where
  save : Option Val → DbState → Except Unit DbState
  after : Option Val → DbState → Except Unit DbState

/-- Outcome of a verification attempt: a normal return with the final
persisted state, or a propagated exception with the state rolled back by
`transaction.atomic` (modelled at the interface the spec gives the
persistence collaborator: commit atomically or not at all). -/
inductive VOutcome where
  | ret : Bool → DbState → VOutcome
  | raised : DbState → VOutcome
deriving DecidableEq

/-- Model of `AbstractTask.verify_and_save` (tasks.py): cross-check the
taskruns, and when the confidence reaches `MIN_CONFIDENCE`, run
`save_verified_data` and `after_save` inside one `transaction.atomic`
block — if either raises, the whole transaction rolls back to the entry
state and the exception propagates; otherwise return False. -/
def verify_and_save (h : Hooks) (taskruns : List Val) (s : DbState) : VOutcome :=
  let checked := cross_check taskruns
  if MIN_CONFIDENCE ≤ checked.2 then
    match h.save checked.1 s with
    | Except.error _ => VOutcome.raised s
    | Except.ok s1 =>
        match h.after checked.1 s1 with
        | Except.error _ => VOutcome.raised s
        | Except.ok s2 => VOutcome.ret true s2
  else VOutcome.ret false s

/-- Model of the static `AbstractTask.verify_task` (tasks.py): it fetches
the task data and taskruns from the external service (passed here as
arguments), rebuilds the task instance — whose `__init__` always sets
`verified = False`; the stored info carries no verified flag and no guard
consults prior state — and calls `verify_and_save`. -/
def verify_task (h : Hooks) (taskruns : List Val) (s : DbState) : VOutcome :=
  verify_and_save h taskruns s

/-- A well-formed field name: nonempty and made of word characters only
(so it matches the `(?P<object>[\w\-_]+)` group of the key regex). -/
def ValidName (s : String) : Bool := !s.toList.isEmpty && s.toList.all wordChar

/-- Rebuilding a string from its character list is the identity. -/
theorem String.mk_toList (s : String) : String.mk s.toList = s := rfl

/-- The concrete dict used in the lifecycle examples: the verified data
`{'fld': 'val1'}` from the repository's own `test_flow_of_verified`. -/
def d4 : Val := Val.obj [("fld", Val.str "val1")]

/-- Recording hooks: `save_verified_data` appends the resolved value to the
persisted list, `after_save` creates one follow-on task. -/
def recHooks : Hooks :=
  ⟨fun cc s => Except.ok ⟨s.saved ++ [cc], s.created⟩,
   fun _ s => Except.ok ⟨s.saved, s.created + 1⟩⟩

/-- Hooks whose follow-on hook always raises after a successful save. -/
def failAfterHooks : Hooks :=
  ⟨fun cc s => Except.ok ⟨s.saved ++ [cc], s.created⟩,
   fun _ _ => Except.error ()⟩

/-- C2: a submission list with fewer than the required minimum of 2 entries
(in particular any single-element list, whatever it contains) cross-checks
to confidence 0 with no resolved value; the guard fires before any
comparison is attempted. -/
theorem cross_check_insufficient (entries : List Val) (h : entries.length < 2) :
    cross_check entries = (none, 0) := by
  simp [cross_check, h]

/-- Witness for C2 at a concrete single-element submission list. -/
theorem cross_check_insufficient_witness :
    ([d4] : List Val).length < 2 ∧ cross_check [d4] = (none, 0) :=
  ⟨by decide, cross_check_insufficient [d4] (by decide)⟩

/-- C3: when the confidence reaches the threshold, the save hook commits,
and then the follow-on hook raises, `verify_and_save` leaves the persisted
state exactly as before the attempt (the transaction rolls back both the
staged result and any follow-on work) and no verified result is returned. -/
theorem verify_and_save_rollback_on_hook_failure
    (h : Hooks) (taskruns : List Val) (s s1 : DbState)
    (hconf : MIN_CONFIDENCE ≤ (cross_check taskruns).2)
    (hsave : h.save (cross_check taskruns).1 s = Except.ok s1)
    (hafter : h.after (cross_check taskruns).1 s1 = Except.error ()) :
    verify_and_save h taskruns s = VOutcome.raised s := by
  simp [verify_and_save, hconf, hsave, hafter]

/-- Witness for C3: two agreeing submissions, a recording save hook and an
always-raising follow-on hook; the attempt leaves the empty state. -/
theorem verify_and_save_rollback_on_hook_failure_witness :
    MIN_CONFIDENCE ≤ (cross_check [d4, d4]).2
      ∧ verify_and_save failAfterHooks [d4, d4] ⟨[], 0⟩ = VOutcome.raised ⟨[], 0⟩ :=
  ⟨by decide,
   verify_and_save_rollback_on_hook_failure failAfterHooks [d4, d4] ⟨[], 0⟩
     ⟨[some d4], 0⟩ (by decide) (by decide) (by decide)⟩

/-- C4 counterexample: triggering `verify_task` a second time on a task
whose result was already committed is not a no-op — the result is saved a
second time and a duplicate follow-on task is created, because the rebuilt
instance always starts with `verified = False` and no guard consults prior
state. -/
theorem verify_task_second_trigger_not_noop :
    verify_task recHooks [d4, d4] ⟨[], 0⟩ = VOutcome.ret true ⟨[some d4], 1⟩
      ∧ verify_task recHooks [d4, d4] ⟨[some d4], 1⟩
          = VOutcome.ret true ⟨[some d4, some d4], 2⟩
      ∧ (VOutcome.ret true ⟨[some d4, some d4], 2⟩ : VOutcome)
          ≠ VOutcome.ret true ⟨[some d4], 1⟩ := by
  refine ⟨by decide, by decide, by decide⟩

/-- C4 amended: re-triggering verification re-runs the whole pipeline from
any prior persisted state — the still-agreeing taskruns reach the threshold
again, so the result is committed again and the follow-on hook runs again. -/
theorem verify_task_retrigger_recommits (s : DbState) :
    verify_task recHooks [d4, d4] s
      = VOutcome.ret true ⟨s.saved ++ [some d4], s.created + 1⟩ := by
  have hcc : cross_check [d4, d4] = (some d4, 1) := by decide
  simp [verify_task, verify_and_save, hcc, recHooks, MIN_CONFIDENCE]

/-- Witness for C4's amended claim at the already-verified state. -/
theorem verify_task_retrigger_recommits_witness :
    verify_task recHooks [d4, d4] ⟨[some d4], 1⟩
      = VOutcome.ret true ⟨[some d4, some d4], 2⟩ :=
  verify_task_retrigger_recommits ⟨[some d4], 1⟩

/-- A malformed key makes the insertion pass fail with the
field-name-not-valid error, whatever the starting state. -/
theorem insertAll_malformed :
    ∀ (post : List (String × List String)) (st : P1),
      (∃ k ∈ post.map Prod.fst, parseKey k = none) →
      ∃ k0, parseKey k0 = none
        ∧ insertAll post st = Except.error (UErr.malformedFieldName k0) := by
  intro post
  induction post with
  | nil => intro st h; simp at h
  | cons q rest ih =>
    intro st h
    obtain ⟨k, vs⟩ := q
    cases hk : parseKey k with
    | none =>
      refine ⟨k, hk, ?_⟩
      simp [insertAll, stepKey, hk, Except.bind]
    | some t =>
      obtain ⟨k', hk', hnone⟩ := h
      rw [List.map_cons] at hk'
      rcases List.mem_cons.mp hk' with h1 | h1
      · have hkk : k' = k := h1
        rw [hkk] at hnone
        rw [hnone] at hk
        exact Option.noConfusion hk
      · have hrest : ∃ k0 ∈ rest.map Prod.fst, parseKey k0 = none :=
          ⟨k', h1, hnone⟩
        obtain ⟨st1, hst1⟩ : ∃ st1, stepKey st k vs = Except.ok st1 := by
          obtain ⟨name, sels, trail⟩ := t
          simp only [stepKey, hk]
          exact ⟨_, rfl⟩
        obtain ⟨k0, hk0, heq⟩ := ih st1 hrest
        exact ⟨k0, hk0, by simp [insertAll, hst1, Except.bind, heq]⟩

/-- C8: any input containing a key that does not match the path grammar
makes `unpack_post` fail with the malformed-field-name error (the source's
`Exception("Field name not valid: ...")`, the spec's `MalformedFieldName`);
no conversion order can rescue it. -/
theorem unpack_post_malformed_key_error
    (post : List (String × List String)) (order : List (List String))
    (h : ∃ k ∈ post.map Prod.fst, parseKey k = none) :
    ∃ k0, parseKey k0 = none
      ∧ unpack_post post order = Except.error (UErr.malformedFieldName k0) := by
  obtain ⟨k0, hk0, heq⟩ := insertAll_malformed post ⟨Val.obj [], []⟩ h
  exact ⟨k0, hk0, by simp [unpack_post, heq, Except.bind]⟩

/-- Witness for C8 at the concrete malformed key `bad]key`. -/
theorem unpack_post_malformed_key_error_witness :
    ∃ k0, parseKey k0 = none
      ∧ unpack_post [("bad]key", ["v"])] []
          = Except.error (UErr.malformedFieldName k0) :=
  unpack_post_malformed_key_error [("bad]key", ["v"])] []
    ⟨"bad]key", by decide, by decide⟩

/-- The nested numbered-rows POST from the repository's own test
`test_nested_rows_numbered` (views are exercised with
`row[0][entry_id]=val1&row[0][entry_options][0]=val2&row[0][entry_options][1]=val3`). -/
def post9 : List (String × List String) :=
  [("row[0][entry_id]", ["val1"]),
   ("row[0][entry_options][0]", ["val2"]),
   ("row[0][entry_options][1]", ["val3"])]

/-- C9: `unpack_post` is not deterministic on this well-formed,
collision-free key set: the conversion pass iterates a Python set of paths,
and the two possible iteration orders produce different trees (converting
the outer level first turns `row` into a list, after which the write to the
inner path is silently skipped and `entry_options` stays a mapping) — the
flakiness the repository's own test records. -/
theorem unpack_post_conversion_order_dependent :
    ([["row"], ["row", "0", "entry_options"]]).Perm (collectedPaths post9)
      ∧ ([["row", "0", "entry_options"], ["row"]]).Perm (collectedPaths post9)
      ∧ unpack_post post9 [["row", "0", "entry_options"], ["row"]]
          ≠ unpack_post post9 [["row"], ["row", "0", "entry_options"]] := by
  refine ⟨by decide, by decide, by decide⟩

/-- Writing below the root always yields a mapping at the root. -/
theorem dnew_cons_obj (v : Val) (s : String) (rest : List String) (leaf : Val) :
    ∃ m', dnew v (s :: rest) leaf = Val.obj m' :=
  ⟨_, rfl⟩

/-- The insertion pass keeps the root a mapping. -/
theorem insertAll_root_obj :
    ∀ (post : List (String × List String)) (m : List (String × Val))
      (convs : List (List String)) (st' : P1),
      insertAll post ⟨Val.obj m, convs⟩ = Except.ok st' →
      ∃ m', st'.result = Val.obj m' := by
  intro post
  induction post with
  | nil => intro m convs st' h; simp [insertAll] at h; exact ⟨m, by rw [← h]⟩
  | cons q rest ih =>
    intro m convs st' h
    obtain ⟨k, vs⟩ := q
    cases hk : parseKey k with
    | none => simp [insertAll, stepKey, hk, Except.bind] at h
    | some t =>
      obtain ⟨name, sels, trail⟩ := t
      simp only [insertAll, stepKey, hk, Except.bind] at h
      obtain ⟨m2, hm2⟩ := dnew_cons_obj (Val.obj m) name sels _
      rw [hm2] at h
      exact ih m2 _ st' h

/-- Paths emitted while scanning selectors extend the nonempty base path. -/
theorem selConvPaths_ne_nil :
    ∀ (sels path : List String), path ≠ [] →
      ∀ p ∈ selConvPaths path sels, p ≠ [] := by
  intro sels
  induction sels with
  | nil => intro path hp p hmem; simp [selConvPaths] at hmem
  | cons s rest ih =>
    intro path hp p hmem
    simp only [selConvPaths] at hmem
    rcases List.mem_append.mp hmem with h1 | h1
    · rcases Bool.eq_false_or_eq_true (digitLeading s) with hd | hd <;>
        simp [hd] at h1
      rw [h1]; exact hp
    · exact ih (path ++ [s]) (by simp) p h1

/-- `addConv` preserves path-nonemptiness of the collected list. -/
theorem addConv_nonempty (convs : List (List String)) (p : List String)
    (hc : ∀ q ∈ convs, q ≠ []) (hp : p ≠ []) :
    ∀ q ∈ addConv convs p, q ≠ [] := by
  intro q hq
  unfold addConv at hq
  by_cases hmem : p ∈ convs <;> simp [hmem] at hq
  · exact hc q hq
  · rcases hq with h | h
    · exact hc q h
    · rw [h]; exact hp

/-- Folding `addConv` over emitted selector paths preserves nonemptiness. -/
theorem foldl_addConv_nonempty :
    ∀ (ps convs : List (List String)),
      (∀ q ∈ convs, q ≠ []) → (∀ q ∈ ps, q ≠ []) →
      ∀ q ∈ ps.foldl addConv convs, q ≠ [] := by
  intro ps
  induction ps with
  | nil => intro convs hc _ q hq; exact hc q hq
  | cons p rest ih =>
    intro convs hc hp q hq
    simp only [List.foldl_cons] at hq
    exact ih (addConv convs p)
      (addConv_nonempty convs p hc (hp p (by simp)))
      (fun r hr => hp r (by simp [hr])) q hq

/-- The insertion pass only ever collects nonempty conversion paths. -/
theorem insertAll_convs_nonempty :
    ∀ (post : List (String × List String)) (st st' : P1),
      (∀ p ∈ st.convs, p ≠ []) → insertAll post st = Except.ok st' →
      ∀ p ∈ st'.convs, p ≠ [] := by
  intro post
  induction post with
  | nil => intro st st' hc h; simp [insertAll] at h; rw [← h]; exact hc
  | cons q rest ih =>
    intro st st' hc h
    obtain ⟨k, vs⟩ := q
    cases hk : parseKey k with
    | none => simp [insertAll, stepKey, hk, Except.bind] at h
    | some t =>
      obtain ⟨name, sels, trail⟩ := t
      simp only [insertAll, stepKey, hk, Except.bind] at h
      refine ih _ st' ?_ h
      exact foldl_addConv_nonempty (selConvPaths [name] sels) st.convs hc
        (selConvPaths_ne_nil sels [name] (by simp))

/-- Every collected conversion path of a POST is nonempty. -/
theorem collectedPaths_nonempty (post : List (String × List String)) :
    ∀ p ∈ collectedPaths post, p ≠ [] := by
  unfold collectedPaths
  cases h : insertAll post ⟨Val.obj [], []⟩ with
  | error e => simp
  | ok st =>
    exact insertAll_convs_nonempty post ⟨Val.obj [], []⟩ st (by simp) h

/-- A conversion step for a nonempty path keeps a mapping-rooted tree
mapping-rooted. -/
theorem convertStep_obj (m : List (String × Val)) (p : List String) (v' : Val)
    (hp : p ≠ []) (h : convertStep (Val.obj m) p = Except.ok v') :
    ∃ m', v' = Val.obj m' := by
  unfold convertStep at h
  split at h
  · cases h
  · split at h
    · cases h
    · split at h
      · cases h
      · cases p with
        | nil => exact absurd rfl hp
        | cons s rest =>
          simp only [dset] at h
          injection h with h
          exact ⟨_, h.symm⟩
  · cases h

/-- The conversion pass over nonempty paths keeps the root a mapping. -/
theorem foldlM_convert_obj :
    ∀ (order : List (List String)) (m : List (String × Val)) (v : Val),
      (∀ p ∈ order, p ≠ []) →
      List.foldlM convertStep (Val.obj m) order = Except.ok v →
      ∃ m', v = Val.obj m' := by
  intro order
  induction order with
  | nil =>
    intro m v _ h
    simp only [List.foldlM, pure, Except.pure] at h
    injection h with h
    exact ⟨m, h.symm⟩
  | cons p rest ih =>
    intro m v hne h
    simp only [List.foldlM, bind, Except.bind] at h
    cases hstep : convertStep (Val.obj m) p with
    | error e => rw [hstep] at h; cases h
    | ok v1 =>
      rw [hstep] at h
      obtain ⟨m1, hm1⟩ := convertStep_obj m p v1 (hne p (by simp)) hstep
      rw [hm1] at h
      exact ih m1 v (fun q hq => hne q (by simp [hq])) h

/-- C10: whenever `unpack_post` succeeds on any conversion order that the
set of collected paths can produce, the root of the result is a mapping
keyed by the name part of each field key — never a sequence or a scalar;
list conversion only ever applies strictly below the root. -/
theorem unpack_post_root_is_mapping
    (post : List (String × List String)) (order : List (List String)) (v : Val)
    (horder : order.Perm (collectedPaths post))
    (h : unpack_post post order = Except.ok v) :
    ∃ m, v = Val.obj m := by
  unfold unpack_post at h
  cases hins : insertAll post ⟨Val.obj [], []⟩ with
  | error e => rw [hins] at h; cases h
  | ok st =>
    rw [hins] at h
    simp only [Except.bind] at h
    obtain ⟨m1, hm1⟩ := insertAll_root_obj post [] [] st hins
    rw [hm1] at h
    refine foldlM_convert_obj order m1 v ?_ h
    intro p hp
    exact collectedPaths_nonempty post p (horder.subset hp)

/-- Witness for C10 at a concrete successful unpack. -/
theorem unpack_post_root_is_mapping_witness :
    ∃ m, Val.obj [("a", Val.str "x")] = Val.obj m :=
  unpack_post_root_is_mapping [("a", ["x"])] [] (Val.obj [("a", Val.str "x")])
    (by decide) (by decide)

/-- Well-formed value trees: every mapping level has distinct keys — the
states actually representable by Python dicts, which the unpacker and the
webhook payloads produce. -/
inductive Val.WF : Val → Prop where
  | str : ∀ s, Val.WF (Val.str s)
  | arr : ∀ l, (∀ v ∈ l, Val.WF v) → Val.WF (Val.arr l)
  | obj : ∀ m, (m.map Prod.fst).Nodup → (∀ p ∈ m, Val.WF p.2) → Val.WF (Val.obj m)

/-- A successful lookup produces a member of the association list. -/
theorem lookupA_mem :
    ∀ (m : List (String × Val)) (k : String) (v : Val),
      lookupA m k = some v → (k, v) ∈ m := by
  intro m
  induction m with
  | nil => intro k v h; cases h
  | cons p rest ih =>
    intro k v h
    obtain ⟨k0, v0⟩ := p
    by_cases hk : k0 = k
    · subst hk
      simp [lookupA] at h
      simp [h]
    · simp [lookupA, hk] at h
      exact List.mem_cons_of_mem _ (ih k v h)

/-- A successful lookup means the key occurs in the key list. -/
theorem lookupA_some_mem_keys (m : List (String × Val)) (k : String) (v : Val)
    (h : lookupA m k = some v) : k ∈ m.map Prod.fst :=
  List.mem_map.mpr ⟨(k, v), lookupA_mem m k v h, rfl⟩

/-- A failed lookup means the key is absent from the key list. -/
theorem lookupA_none_not_mem_keys :
    ∀ (m : List (String × Val)) (k : String),
      lookupA m k = none → k ∉ m.map Prod.fst := by
  intro m
  induction m with
  | nil => intro k _ h; simp at h
  | cons p rest ih =>
    intro k h hmem
    obtain ⟨k0, v0⟩ := p
    by_cases hk : k0 = k
    · subst hk; simp [lookupA] at h
    · simp [lookupA, hk] at h
      rcases List.mem_cons.mp hmem with h1 | h1
      · exact hk h1.symm
      · exact ih k h h1

/-- With distinct keys, lookup finds exactly the stored member. -/
theorem lookupA_of_mem :
    ∀ (m : List (String × Val)), (m.map Prod.fst).Nodup →
      ∀ (k : String) (v : Val), (k, v) ∈ m → lookupA m k = some v := by
  intro m
  induction m with
  | nil => intro _ k v hm; cases hm
  | cons p rest ih =>
    intro hnd k v hm
    obtain ⟨k0, v0⟩ := p
    simp only [List.map_cons, List.nodup_cons] at hnd
    rcases List.mem_cons.mp hm with h | h
    · obtain ⟨h1, h2⟩ := Prod.mk.injEq .. ▸ h
      subst h1; subst h2
      simp [lookupA]
    · have hk : k0 ≠ k := by
        intro hc
        subst hc
        exact hnd.1 (List.mem_map.mpr ⟨(k0, v), h, rfl⟩)
      simp [lookupA, hk]
      exact ih hnd.2 k v h

/-- Unfolding equation for `verifyFields` on a cons cell, phrased through
`fieldCheck`. -/
theorem verifyFields_cons (k : String) (v : Val) (fs : List (String × Val))
    (rest : List Val) :
    verifyFields ((k, v) :: fs) rest
      = (match (fieldCheck rest k v).1, (verifyFields fs rest).1 with
         | some x, some xs => some ((k, x) :: xs)
         | _, _ => none,
         min (fieldCheck rest k v).2 (verifyFields fs rest).2) := rfl

/-- Confidences produced by the verifier dispatch are nonnegative. -/
theorem verifyVal_conf_nonneg : ∀ (v : Val) (rest : List Val), 0 ≤ (verifyVal v rest).2 := by
  have haux : ∀ (fs : List (String × Val)),
      (∀ p ∈ fs, ∀ rest', 0 ≤ (verifyVal p.2 rest').2) →
      ∀ rest, 0 ≤ (verifyFields fs rest).2 := by
    intro fs
    induction fs with
    | nil => intro _ rest; simp [verifyFields]
    | cons p fs ih =>
      intro hp rest
      obtain ⟨k, v⟩ := p
      rw [verifyFields_cons]
      refine le_min ?_ (ih (fun q hq => hp q (by simp [hq])) rest)
      unfold fieldCheck
      cases h : rest.mapM (fun e => objLookupV e k) with
      | none => simp
      | some subs => simpa using hp (k, v) (by simp) subs
  intro v
  induction v using Val.inductionOn with
  | hstr s => intro rest; rw [verifyVal]; split <;> simp
  | harr l ih => intro rest; rw [verifyVal]; split <;> simp
  | hobj m ih =>
    intro rest
    rw [verifyVal]
    split
    · exact haux m (fun p hp rest' => ih p hp rest') rest
    · simp

/-- Confidences produced by the per-field verifier are nonnegative. -/
theorem verifyFields_conf_nonneg (fs : List (String × Val)) (rest : List Val) :
    0 ≤ (verifyFields fs rest).2 := by
  induction fs with
  | nil => simp [verifyFields]
  | cons p fs ih =>
    obtain ⟨k, v⟩ := p
    rw [verifyFields_cons]
    refine le_min ?_ ih
    unfold fieldCheck
    cases h : rest.mapM (fun e => objLookupV e k) with
    | none => simp
    | some subs => exact verifyVal_conf_nonneg v subs

/-- One disagreeing field collapses the whole mapping verification:
no resolved value and confidence 0. -/
theorem verifyFields_fail :
    ∀ (fs : List (String × Val)) (rest : List Val) (k : String) (v : Val),
      (k, v) ∈ fs → fieldCheck rest k v = (none, 0) →
      verifyFields fs rest = (none, 0) := by
  intro fs
  induction fs with
  | nil => intro rest k v hm _; cases hm
  | cons p fs ih =>
    intro rest k v hm hfail
    obtain ⟨k0, v0⟩ := p
    rw [verifyFields_cons]
    rcases List.mem_cons.mp hm with h | h
    · obtain ⟨h1, h2⟩ := Prod.mk.injEq .. ▸ h
      subst h1; subst h2
      rw [hfail]
      simp [min_eq_left (verifyFields_conf_nonneg fs rest)]
    · have hconf : 0 ≤ (fieldCheck rest k0 v0).2 := by
        unfold fieldCheck
        cases hmm : rest.mapM (fun e => objLookupV e k0) with
        | none => simp
        | some subs => exact verifyVal_conf_nonneg v0 subs
      rw [ih rest k v h hfail]
      simp [min_eq_right hconf]

/-- Verifying the fields of a well-formed mapping against an identical
co-submission resolves every field with confidence 1. -/
theorem verifyFields_self (m : List (String × Val)) (hnd : (m.map Prod.fst).Nodup) :
    ∀ fs : List (String × Val), (∀ p ∈ fs, p ∈ m) →
      (∀ p ∈ fs, verifyVal p.2 [p.2] = (some p.2, 1)) →
      verifyFields fs [Val.obj m] = (some fs, 1) := by
  intro fs
  induction fs with
  | nil => intro _ _; rfl
  | cons p fs ih =>
    intro hmem hself
    obtain ⟨k, v⟩ := p
    rw [verifyFields_cons]
    have hlook : lookupA m k = some v :=
      lookupA_of_mem m hnd k v (hmem (k, v) (by simp))
    have hmapm : List.mapM (fun e => objLookupV e k) [Val.obj m] = some [v] := by
      simp [List.mapM, List.mapM.loop, objLookupV, hlook]
    have hfield : fieldCheck [Val.obj m] k v = (some v, 1) := by
      unfold fieldCheck
      rw [hmapm]
      exact hself (k, v) (by simp)
    rw [hfield, ih (fun q hq => hmem q (by simp [hq]))
      (fun q hq => hself q (by simp [hq]))]
    simp

/-- A well-formed value tree verified against an identical copy of itself
resolves to itself with confidence 1. -/
theorem verifyVal_self (t : Val) (hwf : Val.WF t) :
    verifyVal t [t] = (some t, 1) := by
  induction hwf with
  | str s => simp [verifyVal]
  | arr l hl =>
    rw [verifyVal]
    have hset : sameSetB l (Val.arr l) = true := by
      simp [sameSetB]
    simp [hset]
  | obj m hnd hm ih =>
    rw [verifyVal]
    have hguard : ([Val.obj m].all isObjB
        && (([Val.obj m].flatMap objKeys).all
          (fun k => (keysA m).any (fun k' => decide (k' = k))))) = true := by
      simp [isObjB, objKeys]
    rw [hguard]
    simp only [if_true]
    rw [verifyFields_self m hnd m (fun p hp => hp) ih]
    simp

/-- C1: cross-checking a pair of identical well-formed value trees returns
confidence 1 and the shared tree as the resolved result; cross-checking two
scalar-field mappings that differ in some field returns confidence 0 and no
resolved value — with no partial credit in between. -/
theorem cross_check_unanimous_and_disagreement :
    (∀ t : Val, Val.WF t → cross_check [t, t] = (some t, 1))
      ∧ (∀ m1 m2 : List (String × Val),
          (m1.map Prod.fst).Nodup →
          (∀ p ∈ m1, isStrB p.2 = true) → (∀ p ∈ m2, isStrB p.2 = true) →
          (∃ k, lookupA m1 k ≠ lookupA m2 k) →
          cross_check [Val.obj m1, Val.obj m2] = (none, 0)) := by
  constructor
  · intro t hwf
    unfold cross_check
    rw [if_neg (by simp : ¬([t, t].length < 2))]
    exact verifyVal_self t hwf
  · intro m1 m2 hnd hsc1 hsc2 hdiff
    unfold cross_check
    rw [if_neg (by simp : ¬([Val.obj m1, Val.obj m2].length < 2))]
    show verifyVal (Val.obj m1) [Val.obj m2] = (none, 0)
    obtain ⟨k, hk⟩ := hdiff
    cases h1 : lookupA m1 k with
    | none =>
      cases hm2 : lookupA m2 k with
      | none => exact absurd (h1.trans hm2.symm) hk
      | some v2 =>
        have hkm2 : k ∈ m2.map Prod.fst := lookupA_some_mem_keys m2 k v2 hm2
        have hkm1 : k ∉ m1.map Prod.fst := lookupA_none_not_mem_keys m1 k h1
        rw [verifyVal]
        split
        · rename_i hg
          exfalso
          have hB := (Bool.and_eq_true _ _ |>.mp hg).2
          have hkfm : k ∈ [Val.obj m2].flatMap objKeys := by
            have heq : [Val.obj m2].flatMap objKeys = m2.map Prod.fst := by
              simp [objKeys, keysA]
            rw [heq]
            exact hkm2
          have hany := List.all_eq_true.mp hB k hkfm
          obtain ⟨k', hk'mem, hk'eq⟩ := List.any_eq_true.mp hany
          have : k' = k := of_decide_eq_true hk'eq
          subst this
          exact hkm1 hk'mem
        · rfl
    | some v1 =>
      have hmem1 : (k, v1) ∈ m1 := lookupA_mem m1 k v1 h1
      have hfail : fieldCheck [Val.obj m2] k v1 = (none, 0) := by
        cases hm2 : lookupA m2 k with
        | none =>
          unfold fieldCheck
          have hmm : List.mapM (fun e => objLookupV e k) [Val.obj m2] = none := by
            simp [List.mapM, List.mapM.loop, objLookupV, hm2]
          rw [hmm]
        | some v2 =>
          have hne : v1 ≠ v2 := fun hc => hk (by rw [h1, hm2, hc])
          obtain ⟨s1, hv1⟩ : ∃ s, v1 = Val.str s := by
            have hstr := hsc1 (k, v1) hmem1
            cases v1 with
            | str s => exact ⟨s, rfl⟩
            | arr l => simp [isStrB] at hstr
            | obj mm => simp [isStrB] at hstr
          obtain ⟨s2, hv2⟩ : ∃ s, v2 = Val.str s := by
            have hstr := hsc2 (k, v2) (lookupA_mem m2 k v2 hm2)
            cases v2 with
            | str s => exact ⟨s, rfl⟩
            | arr l => simp [isStrB] at hstr
            | obj mm => simp [isStrB] at hstr
          subst hv1; subst hv2
          unfold fieldCheck
          have hmm : List.mapM (fun e => objLookupV e k) [Val.obj m2]
              = some [Val.str s2] := by
            simp [List.mapM, List.mapM.loop, objLookupV, hm2]
          rw [hmm]
          show verifyVal (Val.str s1) [Val.str s2] = (none, 0)
          have hne2 : ¬(Val.str s2 = Val.str s1) := fun hc => hne (by
            rw [show s1 = s2 from (Val.str.injEq .. ▸ hc).symm])
          simp [verifyVal, hne2]
      rw [verifyVal]
      split
      · rw [verifyFields_fail m1 [Val.obj m2] k v1 hmem1 hfail]
        rfl
      · rfl

/-- Proof that the concrete dict `d4` is a well-formed value tree. -/
theorem d4_wf : Val.WF d4 := by
  refine Val.WF.obj _ (by decide) ?_
  intro p hp
  simp [d4] at hp
  rw [hp]
  exact Val.WF.str _

/-- Witness for C1: the pair from the repository tests — identical dicts
`{'fld': 'val1'}` agree with confidence 1; `{'fld': 'val1'}` against
`{'fld': 'whatever'}` yields confidence 0 and no resolved value. -/
theorem cross_check_unanimous_and_disagreement_witness :
    cross_check [d4, d4] = (some d4, 1)
      ∧ cross_check [Val.obj [("fld", Val.str "val1")],
          Val.obj [("fld", Val.str "whatever")]] = (none, 0) :=
  ⟨cross_check_unanimous_and_disagreement.1 d4 d4_wf,
   cross_check_unanimous_and_disagreement.2 [("fld", Val.str "val1")]
     [("fld", Val.str "whatever")] (by decide) (by decide) (by decide)
     ⟨"fld", by decide⟩⟩

/-- A well-formed selector segment: nonempty and made of word characters
(matching the `[\d\w\-_]+` selector character class). -/
def WordIdx (s : String) : Bool := !s.toList.isEmpty && s.toList.all wordChar

/-- Unfolding equation for `selsP` inside a bracket group. -/
theorem selsP_some_cons (acc : List Char) (c : Char) (rest : List Char) :
    selsP (some acc) (c :: rest)
      = if c = ']' then
          match acc with
          | [] => if rest.isEmpty then some ([], true) else none
          | a :: acc2 => (selsP none rest).map
              (fun p => (String.mk (a :: acc2).reverse :: p.1, p.2))
        else if wordChar c then selsP (some (c :: acc)) rest else none := rfl

/-- Unfolding equation for `selsP` between bracket groups. -/
theorem selsP_none_cons (c : Char) (rest : List Char) :
    selsP none (c :: rest)
      = if c = '[' then selsP (some []) rest else none := rfl

/-- `takeWhile` runs through a prefix on which the predicate holds. -/
theorem takeWhile_append_of_all (p : Char → Bool) :
    ∀ (l r : List Char), (∀ c ∈ l, p c = true) →
      (l ++ r).takeWhile p = l ++ r.takeWhile p := by
  intro l
  induction l with
  | nil => intro r _; simp
  | cons c cs ih =>
    intro r hall
    have hc : p c = true := hall c (by simp)
    simp [List.takeWhile_cons, hc]
    exact ih r (fun c2 hc2 => hall c2 (by simp [hc2]))

/-- `dropWhile` skips a prefix on which the predicate holds. -/
theorem dropWhile_append_of_all (p : Char → Bool) :
    ∀ (l r : List Char), (∀ c ∈ l, p c = true) →
      (l ++ r).dropWhile p = r.dropWhile p := by
  intro l
  induction l with
  | nil => intro r _; simp
  | cons c cs ih =>
    intro r hall
    have hc : p c = true := hall c (by simp)
    simp [List.dropWhile_cons, hc]
    exact ih r (fun c2 hc2 => hall c2 (by simp [hc2]))

/-- Extract the two facts packed into `ValidName`. -/
theorem validName_spec (s : String) (h : ValidName s = true) :
    s.toList ≠ [] ∧ ∀ c ∈ s.toList, wordChar c = true := by
  unfold ValidName at h
  obtain ⟨h1, h2⟩ := Bool.and_eq_true _ _ |>.mp h
  constructor
  · simpa using h1
  · exact fun c hc => List.all_eq_true.mp h2 c hc

/-- A bare valid name parses to itself with no selectors and no trailing
brackets. -/
theorem parseKey_plain (name : String) (h : ValidName name = true) :
    parseKey name = some (name, [], false) := by
  obtain ⟨hne, hall⟩ := validName_spec name h
  have htake : name.toList.takeWhile wordChar = name.toList := by
    have := takeWhile_append_of_all wordChar name.toList [] hall
    simpa using this
  have hdrop : name.toList.dropWhile wordChar = [] := by
    have := dropWhile_append_of_all wordChar name.toList [] hall
    simpa using this
  simp only [parseKey, htake, hdrop]
  rw [if_neg (by simpa using hne)]
  simp [parseSels, selsP, String.mk_toList]

/-- Character list of an appended string. -/
theorem toList_append (a b : String) : (a ++ b).toList = a.toList ++ b.toList :=
  String.data_append ..

/-- A valid name followed by `[]` parses to the name with the
force-sequence flag set. -/
theorem parseKey_trailing (name : String) (h : ValidName name = true) :
    parseKey (name ++ "[]") = some (name, [], true) := by
  obtain ⟨hne, hall⟩ := validName_spec name h
  have hcs : (name ++ "[]").toList = name.toList ++ ['[', ']'] := by
    rw [toList_append]; rfl
  have htake : (name.toList ++ ['[', ']']).takeWhile wordChar = name.toList := by
    rw [takeWhile_append_of_all wordChar name.toList _ hall]
    simp [List.takeWhile_cons, wordChar]
  have hdrop : (name.toList ++ ['[', ']']).dropWhile wordChar = ['[', ']'] := by
    rw [dropWhile_append_of_all wordChar name.toList _ hall]
    simp [List.dropWhile_cons, wordChar]
  simp only [parseKey, hcs, htake, hdrop]
  rw [if_neg (by simpa using hne)]
  simp [parseSels, selsP, String.mk_toList]

/-- Inside a bracket group, a run of word characters followed by `]`
closes the group and recursion continues after it. -/
theorem selsP_inside (w : List Char) (hw : ∀ c ∈ w, wordChar c = true) :
    ∀ (acc tail : List Char),
      selsP (some acc) (w ++ ']' :: tail)
        = match w.reverse ++ acc with
          | [] => if tail.isEmpty then some ([], true) else none
          | a :: acc2 => (selsP none tail).map
              (fun p => (String.mk ((a :: acc2).reverse) :: p.1, p.2)) := by
  induction w with
  | nil =>
    intro acc tail
    cases acc with
    | nil => simp [selsP]
    | cons a acc2 => simp [selsP]
  | cons c w2 ih =>
    intro acc tail
    have hcw : wordChar c = true := hw c (by simp)
    have hcne : ¬(c = ']') := by
      intro hc
      rw [hc] at hcw
      exact absurd hcw (by decide)
    rw [List.cons_append]
    rw [selsP_some_cons]
    rw [if_neg hcne, if_pos hcw]
    rw [ih (fun c2 hc2 => hw c2 (by simp [hc2])) (c :: acc) tail]
    have hrev : w2.reverse ++ (c :: acc) = (c :: w2).reverse ++ acc := by
      simp
    rw [hrev]

/-- A valid name with one bracketed word selector parses to the name, that
single selector, and no trailing brackets. -/
theorem parseKey_selector (name idx : String) (hn : ValidName name = true)
    (hidx : WordIdx idx = true) :
    parseKey (name ++ "[" ++ idx ++ "]") = some (name, [idx], false) := by
  obtain ⟨hne, hall⟩ := validName_spec name hn
  have hidx2 : idx.toList ≠ [] ∧ ∀ c ∈ idx.toList, wordChar c = true := by
    unfold WordIdx at hidx
    obtain ⟨h1, h2⟩ := Bool.and_eq_true _ _ |>.mp hidx
    exact ⟨by simpa using h1, fun c hc => List.all_eq_true.mp h2 c hc⟩
  have hcs : (name ++ "[" ++ idx ++ "]").toList
      = name.toList ++ '[' :: (idx.toList ++ [']']) := by
    rw [toList_append, toList_append, toList_append]
    simp
  have htake : (name.toList ++ '[' :: (idx.toList ++ [']'])).takeWhile wordChar
      = name.toList := by
    rw [takeWhile_append_of_all wordChar name.toList _ hall]
    simp [List.takeWhile_cons, wordChar]
  have hdrop : (name.toList ++ '[' :: (idx.toList ++ [']'])).dropWhile wordChar
      = '[' :: (idx.toList ++ [']']) := by
    rw [dropWhile_append_of_all wordChar name.toList _ hall]
    simp [List.dropWhile_cons, wordChar]
  simp only [parseKey, hcs, htake, hdrop]
  rw [if_neg (by simpa using hne)]
  have hsels : parseSels ('[' :: (idx.toList ++ [']'])) = some ([idx], false) := by
    unfold parseSels
    rw [selsP_none_cons]
    rw [if_pos rfl]
    rw [selsP_inside idx.toList hidx2.2 [] []]
    cases hrev : idx.toList.reverse with
    | nil =>
      exfalso
      exact hidx2.1 (by simpa using congrArg List.reverse hrev)
    | cons a acc2 =>
      have : (a :: acc2).reverse = idx.toList := by
        rw [← hrev]; simp
      simp [selsP, this, String.mk_toList]
  rw [hsels]
  simp [String.mk_toList]

/-- C7: a key submitted with exactly one value and no trailing `[]` unpacks
to a bare scalar at its path; the same key with trailing `[]` and the same
single value unpacks to a one-element sequence; a key with two or more
submitted values unpacks to the ordered sequence of the values in
submission order. -/
theorem unpack_post_scalar_vs_bracket_leaf (name : String)
    (hname : ValidName name = true) :
    (∀ (v : String) (order : List (List String)),
        order.Perm (collectedPaths [(name, [v])]) →
        unpack_post [(name, [v])] order = Except.ok (Val.obj [(name, Val.str v)]))
      ∧ (∀ (v : String) (order : List (List String)),
        order.Perm (collectedPaths [(name ++ "[]", [v])]) →
        unpack_post [(name ++ "[]", [v])] order
          = Except.ok (Val.obj [(name, Val.arr [Val.str v])]))
      ∧ (∀ (vs : List String) (order : List (List String)), 2 ≤ vs.length →
        order.Perm (collectedPaths [(name, vs)]) →
        unpack_post [(name, vs)] order
          = Except.ok (Val.obj [(name, Val.arr (vs.map Val.str))])) := by
  have hstep1 : ∀ v : String, stepKey ⟨Val.obj [], []⟩ name [v]
      = Except.ok ⟨Val.obj [(name, Val.str v)], []⟩ := by
    intro v
    simp [stepKey, parseKey_plain name hname, selConvPaths, dnew, lookupA, updateA]
  have hstep2 : ∀ v : String, stepKey ⟨Val.obj [], []⟩ (name ++ "[]") [v]
      = Except.ok ⟨Val.obj [(name, Val.arr [Val.str v])], []⟩ := by
    intro v
    simp [stepKey, parseKey_trailing name hname, selConvPaths, dnew, lookupA, updateA]
  have hstep3 : ∀ (a b : String) (t : List String),
      stepKey ⟨Val.obj [], []⟩ name (a :: b :: t)
        = Except.ok ⟨Val.obj [(name, Val.arr ((a :: b :: t).map Val.str))], []⟩ := by
    intro a b t
    simp [stepKey, parseKey_plain name hname, selConvPaths, dnew, lookupA, updateA]
  refine ⟨?_, ?_, ?_⟩
  · intro v order horder
    have hins : insertAll [(name, [v])] ⟨Val.obj [], []⟩
        = Except.ok ⟨Val.obj [(name, Val.str v)], []⟩ := by
      simp [insertAll, hstep1 v, Except.bind]
    have hcoll : collectedPaths [(name, [v])] = [] := by
      simp [collectedPaths, hins]
    rw [hcoll] at horder
    rw [List.perm_nil.mp horder]
    simp [unpack_post, hins, Except.bind, List.foldlM, pure, Except.pure]
  · intro v order horder
    have hins : insertAll [(name ++ "[]", [v])] ⟨Val.obj [], []⟩
        = Except.ok ⟨Val.obj [(name, Val.arr [Val.str v])], []⟩ := by
      simp [insertAll, hstep2 v, Except.bind]
    have hcoll : collectedPaths [(name ++ "[]", [v])] = [] := by
      simp [collectedPaths, hins]
    rw [hcoll] at horder
    rw [List.perm_nil.mp horder]
    simp [unpack_post, hins, Except.bind, List.foldlM, pure, Except.pure]
  · intro vs order hlen horder
    obtain ⟨a, b, t, hvs⟩ : ∃ a b t, vs = a :: b :: t := by
      cases vs with
      | nil => simp at hlen
      | cons a t1 =>
        cases t1 with
        | nil => simp at hlen
        | cons b t2 => exact ⟨a, b, t2, rfl⟩
    subst hvs
    have hins : insertAll [(name, a :: b :: t)] ⟨Val.obj [], []⟩
        = Except.ok ⟨Val.obj [(name, Val.arr ((a :: b :: t).map Val.str))], []⟩ := by
      simp [insertAll, hstep3 a b t, Except.bind]
    have hcoll : collectedPaths [(name, a :: b :: t)] = [] := by
      simp [collectedPaths, hins]
    rw [hcoll] at horder
    rw [List.perm_nil.mp horder]
    simp [unpack_post, hins, Except.bind, List.foldlM, pure, Except.pure]

/-- Witness for C7 at the repository's own test fields. -/
theorem unpack_post_scalar_vs_bracket_leaf_witness :
    unpack_post [("field", ["val1"])] []
        = Except.ok (Val.obj [("field", Val.str "val1")])
      ∧ unpack_post [("field[]", ["val1"])] []
          = Except.ok (Val.obj [("field", Val.arr [Val.str "val1"])])
      ∧ unpack_post [("field", ["val1", "val2"])] []
          = Except.ok (Val.obj [("field", Val.arr [Val.str "val1", Val.str "val2"])]) :=
  ⟨(unpack_post_scalar_vs_bracket_leaf "field" (by decide)).1 "val1" [] (by decide),
   (unpack_post_scalar_vs_bracket_leaf "field" (by decide)).2.1 "val1" [] (by decide),
   (unpack_post_scalar_vs_bracket_leaf "field" (by decide)).2.2 ["val1", "val2"] []
     (by decide) (by decide)⟩

/-- Numeric value of an index string (0 when it is not an integer). -/
def idxNum (s : String) : Int := (intOfKey s).getD 0

/-- A canonical integer index: it triggers conversion (digit-leading, the
source's `re.match(r'\d+', idx)`) and round-trips through `int`/`str`, so
the post-pass lookup `d[str(int(k))]` finds it again. -/
def canonIdx (s : String) : Bool :=
  digitLeading s &&
    match intOfKey s with
    | some k => toString k == s
    | none => false

/-- The raw POST entry for one index/value pair under a field name:
`name[idx]` with a single submitted value. -/
def mkNumKey (name : String) (p : String × String) : String × List String :=
  (name ++ "[" ++ p.1 ++ "]", [p.2])

/-- Accumulated single-level insertions: Python dict assignment for each
index/value pair in order. -/
def accIns (acc : List (String × Val)) (qs : List (String × String)) :
    List (String × Val) :=
  qs.foldl (fun a p => updateA a p.1 (Val.str p.2)) acc

/-- Accumulated conversion-path set updates for single-level keys. -/
def convIns (name : String) (convs : List (List String))
    (qs : List (String × String)) : List (List String) :=
  qs.foldl (fun c p => if digitLeading p.1 then addConv c [name] else c) convs

/-- Facts packed into `canonIdx`. -/
theorem canonIdx_spec (s : String) (h : canonIdx s = true) :
    digitLeading s = true ∧ intOfKey s = some (idxNum s)
      ∧ toString (idxNum s) = s := by
  unfold canonIdx at h
  obtain ⟨h1, h2⟩ := Bool.and_eq_true _ _ |>.mp h
  refine ⟨h1, ?_⟩
  cases hio : intOfKey s with
  | none => rw [hio] at h2; cases h2
  | some k =>
    rw [hio] at h2
    have hts : toString k = s := by simpa using h2
    have hk : idxNum s = k := by simp [idxNum, hio]
    rw [hk]
    exact ⟨rfl, hts⟩

/-- One single-level key processed from the one-field root state. -/
theorem stepKey_single (name idx v : String) (acc : List (String × Val))
    (convs : List (List String)) (hn : ValidName name = true)
    (hidx : WordIdx idx = true) :
    stepKey ⟨Val.obj [(name, Val.obj acc)], convs⟩ (name ++ "[" ++ idx ++ "]") [v]
      = Except.ok ⟨Val.obj [(name, Val.obj (updateA acc idx (Val.str v)))],
          if digitLeading idx then addConv convs [name] else convs⟩ := by
  simp only [stepKey, parseKey_selector name idx hn hidx, selConvPaths]
  cases hd : digitLeading idx <;>
    simp [dnew, lookupA, updateA, selConvPaths, addConv, hd]

/-- One single-level key processed from the empty root state. -/
theorem stepKey_single_base (name idx v : String)
    (convs : List (List String)) (hn : ValidName name = true)
    (hidx : WordIdx idx = true) :
    stepKey ⟨Val.obj [], convs⟩ (name ++ "[" ++ idx ++ "]") [v]
      = Except.ok ⟨Val.obj [(name, Val.obj [(idx, Val.str v)])],
          if digitLeading idx then addConv convs [name] else convs⟩ := by
  simp only [stepKey, parseKey_selector name idx hn hidx, selConvPaths]
  cases hd : digitLeading idx <;>
    simp [dnew, lookupA, updateA, selConvPaths, addConv, hd]

/-- Inserting a list of single-level keys from the one-field root state
accumulates dict assignments and conversion-path updates in order. -/
theorem insertAll_single (name : String) (hn : ValidName name = true) :
    ∀ (qs : List (String × String)) (acc : List (String × Val))
      (convs : List (List String)),
      (∀ p ∈ qs, WordIdx p.1 = true) →
      insertAll (qs.map (mkNumKey name)) ⟨Val.obj [(name, Val.obj acc)], convs⟩
        = Except.ok ⟨Val.obj [(name, Val.obj (accIns acc qs))], convIns name convs qs⟩ := by
  intro qs
  induction qs with
  | nil => intro acc convs _; simp [insertAll, accIns, convIns]
  | cons q qt ih =>
    intro acc convs hword
    obtain ⟨qi, qv⟩ := q
    rw [List.map_cons]
    show insertAll (mkNumKey name (qi, qv) :: qt.map (mkNumKey name)) _ = _
    rw [insertAll]
    rw [show mkNumKey name (qi, qv) = (name ++ "[" ++ qi ++ "]", [qv]) from rfl]
    rw [stepKey_single name qi qv acc convs hn (hword (qi, qv) (by simp))]
    rw [Except.bind]
    rw [ih (updateA acc qi (Val.str qv)) _ (fun p hp => hword p (by simp [hp]))]
    rfl

/-- Inserting a nonempty list of single-level keys from the empty initial
state. -/
theorem insertAll_single_top (name : String) (hn : ValidName name = true)
    (q : String × String) (qt : List (String × String))
    (hword : ∀ p ∈ q :: qt, WordIdx p.1 = true) :
    insertAll ((q :: qt).map (mkNumKey name)) ⟨Val.obj [], []⟩
      = Except.ok ⟨Val.obj [(name, Val.obj (accIns [(q.1, Val.str q.2)] qt))],
          convIns name (if digitLeading q.1 then [[name]] else []) qt⟩ := by
  obtain ⟨qi, qv⟩ := q
  rw [List.map_cons]
  show insertAll (mkNumKey name (qi, qv) :: qt.map (mkNumKey name)) _ = _
  rw [insertAll]
  rw [show mkNumKey name (qi, qv) = (name ++ "[" ++ qi ++ "]", [qv]) from rfl]
  rw [stepKey_single_base name qi qv [] hn (hword (qi, qv) (by simp))]
  rw [Except.bind]
  rw [insertAll_single name hn qt [(qi, Val.str qv)] _
    (fun p hp => hword p (by simp [hp]))]
  cases hd : digitLeading qi <;> simp [addConv, hd]

/-- Once the single conversion path is collected it stays collected. -/
theorem convIns_mem (name : String) :
    ∀ (qs : List (String × String)) (convs : List (List String)),
      [name] ∈ convs → convIns name convs qs = convs := by
  intro qs
  induction qs with
  | nil => intro convs _; rfl
  | cons q qt ih =>
    intro convs hmem
    unfold convIns
    rw [List.foldl_cons]
    cases hd : digitLeading q.1
    · rw [if_neg (by simp)]
      exact ih convs hmem
    · rw [if_pos rfl]
      rw [show addConv convs [name] = convs from by simp [addConv, hmem]]
      exact ih convs hmem

/-- The conversion-path set of single-level keys is the single parent path
exactly when some index is digit-leading. -/
theorem convIns_nil (name : String) :
    ∀ qs : List (String × String),
      convIns name [] qs
        = if qs.any (fun p => digitLeading p.1) then [[name]] else [] := by
  intro qs
  induction qs with
  | nil => rfl
  | cons q qt ih =>
    unfold convIns
    rw [List.foldl_cons]
    cases hd : digitLeading q.1
    · rw [if_neg (by simp)]
      rw [show qt.foldl (fun c p => if digitLeading p.1 then addConv c [name] else c) []
          = convIns name [] qt from rfl]
      rw [ih]
      rw [show (q :: qt).any (fun p => digitLeading p.1)
          = qt.any (fun p => digitLeading p.1) from by simp [hd]]
    · rw [if_pos rfl]
      rw [show addConv [] [name] = [[name]] from by simp [addConv]]
      rw [show qt.foldl (fun c p => if digitLeading p.1 then addConv c [name] else c) [[name]]
          = convIns name [[name]] qt from rfl]
      rw [convIns_mem name qt [[name]] (by simp)]
      simp [List.any_cons, hd]

/-- A fresh key appends at the end of the association list. -/
theorem updateA_fresh :
    ∀ (a : List (String × Val)) (k : String) (v : Val),
      k ∉ a.map Prod.fst → updateA a k v = a ++ [(k, v)] := by
  intro a
  induction a with
  | nil => intro k v _; rfl
  | cons p rest ih =>
    intro k v hk
    obtain ⟨k0, v0⟩ := p
    have hne : ¬(k0 = k) := by
      intro hc
      exact hk (by simp [hc])
    simp only [updateA, if_neg hne, List.cons_append]
    rw [ih k v (fun hc => hk (by simp [hc]))]

/-- Inserting pairwise-distinct fresh keys appends them in order. -/
theorem accIns_fresh :
    ∀ (qs : List (String × String)) (acc : List (String × Val)),
      (∀ p ∈ qs, p.1 ∉ acc.map Prod.fst) → (qs.map Prod.fst).Nodup →
      accIns acc qs = acc ++ qs.map (fun p => (p.1, Val.str p.2)) := by
  intro qs
  induction qs with
  | nil => intro acc _ _; simp [accIns]
  | cons q qt ih =>
    intro acc hfresh hnd
    unfold accIns
    rw [List.foldl_cons]
    rw [updateA_fresh acc q.1 (Val.str q.2) (hfresh q (by simp))]
    rw [show qt.foldl (fun a p => updateA a p.1 (Val.str p.2)) (acc ++ [(q.1, Val.str q.2)])
        = accIns (acc ++ [(q.1, Val.str q.2)]) qt from rfl]
    simp only [List.map_cons, List.nodup_cons] at hnd
    rw [ih (acc ++ [(q.1, Val.str q.2)]) ?_ hnd.2]
    · simp
    · intro p hp
      simp only [List.map_append, List.mem_append]
      rintro (h | h)
      · exact hfresh p (by simp [hp]) h
      · simp at h
        exact hnd.1 (h ▸ List.mem_map.mpr ⟨p, hp, rfl⟩)

/-- `mapM` over a mapped list succeeds pointwise. -/
theorem mapM_loop_map {α β γ : Type} (hf : α → β) (f : β → Option γ) (g : α → γ) :
    ∀ (l : List α) (acc : List γ),
      (∀ a ∈ l, f (hf a) = some (g a)) →
      List.mapM.loop f (l.map hf) acc = some (acc.reverse ++ l.map g) := by
  intro l
  induction l with
  | nil => intro acc _; simp [List.mapM.loop]
  | cons a as ih =>
    intro acc hall
    rw [List.map_cons]
    simp only [List.mapM.loop]
    rw [hall a (by simp)]
    show List.mapM.loop f (as.map hf) (g a :: acc) = _
    rw [ih (g a :: acc) (fun b hb => hall b (by simp [hb]))]
    simp

/-- `mapM` over a mapped list, top level. -/
theorem mapM_option_map {α β γ : Type} (hf : α → β) (f : β → Option γ) (g : α → γ)
    (l : List α) (h : ∀ a ∈ l, f (hf a) = some (g a)) :
    List.mapM f (l.map hf) = some (l.map g) := by
  show List.mapM.loop f (l.map hf) [] = _
  rw [mapM_loop_map hf f g l [] h]
  simp

/-- A single failing element makes `mapM` fail. -/
theorem mapM_loop_none {α β : Type} (f : α → Option β) :
    ∀ (l : List α) (acc : List β) (a : α), a ∈ l → f a = none →
      List.mapM.loop f l acc = none := by
  intro l
  induction l with
  | nil => intro acc a hmem _; cases hmem
  | cons b as ih =>
    intro acc a hmem hnone
    simp only [List.mapM.loop]
    cases hfb : f b with
    | none => rfl
    | some vb =>
      show List.mapM.loop f as (vb :: acc) = none
      rcases List.mem_cons.mp hmem with h | h
      · exfalso
        rw [h] at hnone
        rw [hnone] at hfb
        cases hfb
      · exact ih (vb :: acc) a h hnone

/-- A single failing element makes `mapM` fail, top level. -/
theorem mapM_option_eq_none {α β : Type} (f : α → Option β) (l : List α) (a : α)
    (hmem : a ∈ l) (hnone : f a = none) : List.mapM f l = none :=
  mapM_loop_none f l [] a hmem hnone

/-- The successful path of a conversion step, phrased through its three
intermediate results. -/
theorem convertStep_eq (v : Val) (p : List String) (m : List (String × Val))
    (ints : List Int) (arr : List Val)
    (hget : dget v p = some (Val.obj m))
    (hints : List.mapM (fun pr => intOfKey pr.1) m = some ints)
    (harr : List.mapM (fun i => lookupA m (toString i))
        (List.insertionSort (fun a b => a ≤ b) ints) = some arr) :
    convertStep v p = Except.ok (dset v p (Val.arr arr)) := by
  unfold convertStep
  split
  · rename_i heq
    exact Option.noConfusion (hget.symm.trans heq)
  · rename_i m1 heq
    have hm1 : m1 = m := by
      have h2 := hget.symm.trans heq
      have h3 := Option.some.injEq .. ▸ h2
      exact (Val.obj.injEq .. ▸ h3.symm)
    subst hm1
    split
    · rename_i hnone
      rw [hints] at hnone
      cases hnone
    · rename_i ints1 hsome
      have hints1 : ints1 = ints := by
        have h4 := hints.symm.trans hsome
        injection h4 with h5
        exact h5.symm
      subst hints1
      split
      · rename_i hnone
        rw [harr] at hnone
        cases hnone
      · rename_i arr1 hsome2
        have harr1 : arr1 = arr := by
          have h4 := harr.symm.trans hsome2
          injection h4 with h5
          exact h5.symm
        subst harr1
        rfl
  · rename_i val hnotobj heq
    exfalso
    have h2 := hget.symm.trans heq
    injection h2 with h3
    exact hnotobj m h3.symm

/-- C5: a path level that uses only integer indices is converted to a
sequence ordered by the numeric value of the indices.  `ps` enumerates the
index/value pairs in increasing numeric order; the POST may present them in
any order `qs`, and the conversion pass may iterate the collected path set
in any order; the result is the sequence of values sorted by numeric index,
with gaps preserved positionally (exactly one element per submitted index,
no null filling). -/
theorem unpack_post_numeric_index_ordering
    (name : String) (ps qs : List (String × String)) (order : List (List String))
    (hname : ValidName name = true)
    (hword : ∀ p ∈ ps, WordIdx p.1 = true)
    (hcanon : ∀ p ∈ ps, canonIdx p.1 = true)
    (hsorted : ps.Pairwise (fun a b => idxNum a.1 < idxNum b.1))
    (hne : ps ≠ [])
    (hperm : qs.Perm ps)
    (horder : order.Perm (collectedPaths (qs.map (mkNumKey name)))) :
    unpack_post (qs.map (mkNumKey name)) order
      = Except.ok (Val.obj [(name, Val.arr (ps.map (fun p => Val.str p.2)))]) := by
  have hwordq : ∀ p ∈ qs, WordIdx p.1 = true := fun p hp => hword p (hperm.subset hp)
  have hcanonq : ∀ p ∈ qs, canonIdx p.1 = true := fun p hp => hcanon p (hperm.subset hp)
  have hndps : (ps.map Prod.fst).Nodup := by
    show (ps.map Prod.fst).Pairwise _
    refine List.pairwise_map.mpr (hsorted.imp ?_)
    intro a b hlt hc
    rw [hc] at hlt
    exact lt_irrefl _ hlt
  have hndqs : (qs.map Prod.fst).Nodup := ((hperm.map Prod.fst).nodup_iff).mpr hndps
  have hqne : qs ≠ [] := by
    intro hc
    subst hc
    exact hne (List.perm_nil.mp hperm.symm)
  obtain ⟨q, qt, hq⟩ : ∃ q qt, qs = q :: qt := by
    cases qs with
    | nil => exact absurd rfl hqne
    | cons q qt => exact ⟨q, qt, rfl⟩
  subst hq
  have hins := insertAll_single_top name hname q qt hwordq
  have hdLq : digitLeading q.1 = true := (canonIdx_spec q.1 (hcanonq q (by simp))).1
  rw [if_pos hdLq] at hins
  rw [convIns_mem name qt [[name]] (by simp)] at hins
  have hndqt : (qt.map Prod.fst).Nodup := by
    simp only [List.map_cons, List.nodup_cons] at hndqs
    exact hndqs.2
  have hfst : ∀ p ∈ qt, p.1 ∉ ([(q.1, Val.str q.2)]).map Prod.fst := by
    intro p hp
    simp only [List.map_cons, List.map_nil, List.mem_singleton]
    intro hc
    simp only [List.map_cons, List.nodup_cons] at hndqs
    exact hndqs.1 (hc ▸ List.mem_map.mpr ⟨p, hp, rfl⟩)
  have hA : accIns [(q.1, Val.str q.2)] qt
      = (q :: qt).map (fun p2 => (p2.1, Val.str p2.2)) := by
    rw [accIns_fresh qt [(q.1, Val.str q.2)] hfst hndqt]
    simp
  rw [hA] at hins
  have hcoll : collectedPaths ((q :: qt).map (mkNumKey name)) = [[name]] := by
    unfold collectedPaths
    rw [hins]
  rw [hcoll] at horder
  have horder2 : order = [[name]] := List.perm_singleton.mp horder
  subst horder2
  have hints : List.mapM (fun pr => intOfKey pr.1)
      ((q :: qt).map (fun p2 => (p2.1, Val.str p2.2)))
      = some ((q :: qt).map (fun p2 => idxNum p2.1)) :=
    mapM_option_map _ _ _ _
      (fun p hp => ((canonIdx_spec p.1 (hcanonq p hp)).2).1)
  haveI hanti : IsAntisymm Int (fun a b => a ≤ b) :=
    ⟨fun a b h1 h2 => le_antisymm h1 h2⟩
  haveI htotal : IsTotal Int (fun a b => a ≤ b) := ⟨fun a b => le_total a b⟩
  haveI htrans : IsTrans Int (fun a b => a ≤ b) :=
    ⟨fun a b c h1 h2 => le_trans h1 h2⟩
  have hsort : List.insertionSort (fun a b => a ≤ b)
      ((q :: qt).map (fun p2 => idxNum p2.1))
      = ps.map (fun p2 => idxNum p2.1) := by
    refine @List.eq_of_perm_of_sorted Int (fun a b => a ≤ b) hanti _ _ ?_ ?_ ?_
    · exact (List.perm_insertionSort _ _).trans (hperm.map (fun p2 => idxNum p2.1))
    · exact List.sorted_insertionSort _ _
    · exact List.pairwise_map.mpr (hsorted.imp (fun hlt => le_of_lt hlt))
  have hAnd : ((((q :: qt)).map (fun p2 => (p2.1, Val.str p2.2))).map Prod.fst).Nodup := by
    rw [List.map_map]
    exact hndqs
  have hlookups : ∀ p ∈ ps,
      lookupA ((q :: qt).map (fun p2 => (p2.1, Val.str p2.2))) (toString (idxNum p.1))
        = some (Val.str p.2) := by
    intro p hp
    rw [((canonIdx_spec p.1 (hcanon p hp)).2).2]
    refine lookupA_of_mem _ hAnd p.1 (Val.str p.2) ?_
    exact List.mem_map.mpr ⟨p, hperm.symm.subset hp, rfl⟩
  have harr : List.mapM
      (fun i => lookupA ((q :: qt).map (fun p2 => (p2.1, Val.str p2.2))) (toString i))
      (List.insertionSort (fun a b => a ≤ b) ((q :: qt).map (fun p2 => idxNum p2.1)))
      = some (ps.map (fun p2 => Val.str p2.2)) := by
    rw [hsort]
    exact mapM_option_map (fun p2 => idxNum p2.1)
      (fun i => lookupA ((q :: qt).map (fun p2 => (p2.1, Val.str p2.2))) (toString i))
      (fun p2 => Val.str p2.2) ps hlookups
  have hget : dget
      (Val.obj [(name, Val.obj ((q :: qt).map (fun p2 => (p2.1, Val.str p2.2))))]) [name]
      = some (Val.obj ((q :: qt).map (fun p2 => (p2.1, Val.str p2.2)))) := by
    simp [dget, lookupA]
  have hconv := convertStep_eq _ [name] _ _ _ hget hints harr
  unfold unpack_post
  rw [hins]
  show List.foldlM convertStep
      (Val.obj [(name, Val.obj ((q :: qt).map (fun p2 => (p2.1, Val.str p2.2))))])
      [[name]] = _
  simp only [List.foldlM]
  rw [hconv]
  show List.foldlM convertStep
      (dset (Val.obj [(name, Val.obj ((q :: qt).map (fun p2 => (p2.1, Val.str p2.2))))])
        [name] (Val.arr (ps.map (fun p2 => Val.str p2.2)))) [] = _
  simp [dset, modifyA, List.foldlM, pure, Except.pure]

/-- Witness for C5 at the spec's own example: `row[11]`, `row[2]`, `row[0]`
submitted in that order unpack to the sequence ordered by numeric index
0, 2, 11. -/
theorem unpack_post_numeric_index_ordering_witness :
    unpack_post [("row[11]", ["a"]), ("row[2]", ["b"]), ("row[0]", ["c"])] [["row"]]
      = Except.ok (Val.obj [("row", Val.arr [Val.str "c", Val.str "b", Val.str "a"])]) :=
  unpack_post_numeric_index_ordering "row"
    [("0", "c"), ("2", "b"), ("11", "a")]
    [("11", "a"), ("2", "b"), ("0", "c")]
    [["row"]]
    (by decide) (by decide) (by decide) (by decide) (by decide) (by decide) (by decide)

/-- Dict assignment never removes keys. -/
theorem updateA_keys_super :
    ∀ (a : List (String × Val)) (k k' : String) (v : Val),
      k' ∈ a.map Prod.fst → k' ∈ (updateA a k v).map Prod.fst := by
  intro a
  induction a with
  | nil => intro k k' v h; cases h
  | cons p rest ih =>
    intro k k' v h
    obtain ⟨k0, v0⟩ := p
    by_cases hk : k0 = k
    · subst hk
      simpa [updateA] using h
    · simp only [updateA, if_neg hk, List.map_cons]
      rcases List.mem_cons.mp h with h1 | h1
      · simp [h1]
      · exact List.mem_cons_of_mem _ (ih k k' v h1)

/-- Dict assignment puts its key in the key set. -/
theorem updateA_keys_self :
    ∀ (a : List (String × Val)) (k : String) (v : Val),
      k ∈ (updateA a k v).map Prod.fst := by
  intro a
  induction a with
  | nil => intro k v; simp [updateA]
  | cons p rest ih =>
    intro k v
    obtain ⟨k0, v0⟩ := p
    by_cases hk : k0 = k
    · subst hk; simp [updateA]
    · simp only [updateA, if_neg hk, List.map_cons]
      exact List.mem_cons_of_mem _ (ih k v)

/-- The accumulated insertions keep every existing key. -/
theorem accIns_keys_mono :
    ∀ (qs : List (String × String)) (acc : List (String × Val)) (k : String),
      k ∈ acc.map Prod.fst → k ∈ (accIns acc qs).map Prod.fst := by
  intro qs
  induction qs with
  | nil => intro acc k h; exact h
  | cons q qt ih =>
    intro acc k h
    exact ih (updateA acc q.1 (Val.str q.2)) k (updateA_keys_super acc q.1 k _ h)

/-- Every inserted index ends up in the key set of the accumulated dict. -/
theorem accIns_keys :
    ∀ (qs : List (String × String)) (acc : List (String × Val)) (p : String × String),
      p ∈ qs → p.1 ∈ (accIns acc qs).map Prod.fst := by
  intro qs
  induction qs with
  | nil => intro acc p h; cases h
  | cons q qt ih =>
    intro acc p h
    rcases List.mem_cons.mp h with h1 | h1
    · subst h1
      exact accIns_keys_mono qt (updateA acc p.1 (Val.str p.2)) p.1
        (updateA_keys_self acc p.1 _)
    · exact ih (updateA acc q.1 (Val.str q.2)) p h1

/-- C6 amended: a single level that mixes a conversion-triggering
(digit-leading) index with an index that `int()` cannot parse makes
`unpack_post` raise `ValueError` during the conversion post-pass — the
level is not unpacked as a mapping. -/
theorem unpack_post_mixed_indices_error
    (name : String) (qs : List (String × String)) (order : List (List String))
    (hname : ValidName name = true)
    (hword : ∀ p ∈ qs, WordIdx p.1 = true)
    (hdigit : ∃ p ∈ qs, digitLeading p.1 = true)
    (hbad : ∃ p ∈ qs, intOfKey p.1 = none)
    (horder : order.Perm (collectedPaths (qs.map (mkNumKey name)))) :
    unpack_post (qs.map (mkNumKey name)) order = Except.error UErr.valueError := by
  obtain ⟨q, qt, hq⟩ : ∃ q qt, qs = q :: qt := by
    cases qs with
    | nil => obtain ⟨p, hp, _⟩ := hdigit; cases hp
    | cons q qt => exact ⟨q, qt, rfl⟩
  subst hq
  have hins := insertAll_single_top name hname q qt hword
  have hC : convIns name (if digitLeading q.1 = true then [[name]] else []) qt
      = [[name]] := by
    cases hd : digitLeading q.1
    · rw [if_neg (by simp [hd])]
      rw [convIns_nil]
      obtain ⟨p, hp, hpd⟩ := hdigit
      rcases List.mem_cons.mp hp with h | h
      · exfalso
        rw [h] at hpd
        rw [hd] at hpd
        cases hpd
      · rw [if_pos (List.any_eq_true.mpr ⟨p, h, hpd⟩)]
    · rw [if_pos rfl]
      exact convIns_mem name qt [[name]] (by simp)
  rw [hC] at hins
  have hcoll : collectedPaths ((q :: qt).map (mkNumKey name)) = [[name]] := by
    unfold collectedPaths
    rw [hins]
  rw [hcoll] at horder
  have horder2 : order = [[name]] := List.perm_singleton.mp horder
  subst horder2
  obtain ⟨pb, hpb, hpbad⟩ := hbad
  have hk0 : pb.1 ∈ (accIns [(q.1, Val.str q.2)] qt).map Prod.fst := by
    rcases List.mem_cons.mp hpb with h | h
    · rw [h]
      exact accIns_keys_mono qt [(q.1, Val.str q.2)] q.1 (by simp)
    · exact accIns_keys qt [(q.1, Val.str q.2)] pb h
  obtain ⟨pr, hprA, hprfst⟩ := List.mem_map.mp hk0
  have hmapm : List.mapM (fun pr2 => intOfKey pr2.1)
      (accIns [(q.1, Val.str q.2)] qt) = none :=
    mapM_option_eq_none _ _ pr hprA (by rw [hprfst]; exact hpbad)
  have hget : dget
      (Val.obj [(name, Val.obj (accIns [(q.1, Val.str q.2)] qt))]) [name]
      = some (Val.obj (accIns [(q.1, Val.str q.2)] qt)) := by
    simp [dget, lookupA]
  have hconv : convertStep
      (Val.obj [(name, Val.obj (accIns [(q.1, Val.str q.2)] qt))]) [name]
      = Except.error UErr.valueError := by
    unfold convertStep
    split
    · rename_i heq
      exact Option.noConfusion (hget.symm.trans heq)
    · rename_i m1 heq
      have hm1 : m1 = accIns [(q.1, Val.str q.2)] qt := by
        have h2 := hget.symm.trans heq
        injection h2 with h3
        exact (Val.obj.injEq .. ▸ h3.symm)
      subst hm1
      split
      · rfl
      · rename_i ints hsome
        rw [hmapm] at hsome
        cases hsome
    · rename_i val hnotobj heq
      exfalso
      have h2 := hget.symm.trans heq
      injection h2 with h3
      exact hnotobj _ h3.symm
  unfold unpack_post
  rw [hins]
  show List.foldlM convertStep
      (Val.obj [(name, Val.obj (accIns [(q.1, Val.str q.2)] qt))]) [[name]] = _
  simp only [List.foldlM]
  rw [hconv]
  rfl

/-- The mixed-index POST from the repository's own test
`test_rows_alpha_index`: `row[0][fld]=0&row[bla][fld]=bla`, whose expected
outcome in the test suite is a raised `ValueError`. -/
def postMixed : List (String × List String) :=
  [("row[0][fld]", ["0"]), ("row[bla][fld]", ["bla"])]

/-- C6 counterexample: on a level mixing the integer index `0` with the
non-integer index `bla`, `unpack_post` does not succeed with a mapping —
it raises `ValueError` (from `int('bla')` in the conversion post-pass), for
the only possible iteration order of the collected path set. -/
theorem unpack_post_mixed_indices_value_error :
    ([["row"]]).Perm (collectedPaths postMixed)
      ∧ unpack_post postMixed [["row"]] = Except.error UErr.valueError := by
  refine ⟨by decide, by decide⟩

/-- Witness for C6's amended claim at a concrete single-level mixed input. -/
theorem unpack_post_mixed_indices_error_witness :
    unpack_post ([("0", "a"), ("bla", "b")].map (mkNumKey "row")) [["row"]]
      = Except.error UErr.valueError :=
  unpack_post_mixed_indices_error "row" [("0", "a"), ("bla", "b")] [["row"]]
    (by decide) (by decide) ⟨("0", "a"), by decide, by decide⟩
    ⟨("bla", "b"), by decide, by decide⟩ (by decide)

/-- A POST whose single path level uses only integer indices, one of them
with a leading zero: `row[0]=a&row[01]=b`. -/
def postLeadZero : List (String × List String) :=
  [("row[0]", ["a"]), ("row[01]", ["b"])]

/-- C5 counterexample: a level using only integer indices is not always
converted into a sequence.  With indices `0` and `01` the conversion
post-pass computes `sorted(int(k)) = [0, 1]` and then reads `d[str(1)]` —
but the stored key is `'01'`, so the lookup raises `KeyError` instead of
producing the 2-element sequence the claim requires; this happens for the
only possible iteration order of the collected path set. -/
theorem unpack_post_leading_zero_key_error :
    ([["row"]]).Perm (collectedPaths postLeadZero)
      ∧ unpack_post postLeadZero [["row"]] = Except.error UErr.keyError := by
  refine ⟨by decide, by decide⟩
